import Mathlib

/-!
Shallow embedding of the MIDI-to-keyboard automation tool (`main.py`) and
proofs about its note-mapping, grouping, trimming and playback-loop logic.

Conventions of the embedding:
* Python `int` is `ℤ`; Python `float` timestamps and durations are `ℚ`
  (the claims under study are about the accumulation / comparison structure,
  not about binary rounding; where binary rounding could matter, namely
  `round(idx * (hi - lo) / 14.0)` in `squeeze_index`, the argument is a
  multiple of `1/14` with numerator at most `196`, so the IEEE-double value
  either equals the exact rational (at the ties `k/14 = m + 1/2`, which are
  dyadic) or lies within `2⁻⁴⁵` of it while the nearest tie is `1/28` away;
  hence Python's `round` of the double equals round-half-to-even of the
  exact rational, which is what `round_half_even` below computes).
* Python `//` and `%` on a positive divisor are floor division / modulus,
  embedded as `Int.ediv` / `Int.emod` (identical for positive divisors).
* Python dicts used as keymaps are association lists read with
  `List.lookup`; `d.get(k)` is `List.lookup k d`.
* Python list indexing `KEYS_15[idx]` (which supports negative indices and
  raises on out-of-range) is `pylist_get`, returning `none` on IndexError.
* `mido` messages are modelled by `Msg`: `type` is the message type tag,
  `velocity` is `getattr(msg, "velocity", 0)` (0 when the attribute is
  absent), `is_meta` the meta flag, `time` the delta time in seconds
  (`float(msg.time or 0.0)`).
-/

/-- Message type tag of a mido message, as tested by `msg.type`. -/
inductive MsgType where
  | note_on : MsgType
  | note_off : MsgType
  | other : MsgType
deriving DecidableEq, Repr

/-- A mido message as seen by `main.py`. -/
structure Msg where
  type : MsgType
  note : ℤ
  velocity : ℤ
  is_meta : Bool
  time : ℚ
deriving DecidableEq, Repr

instance : Inhabited Msg := ⟨⟨MsgType.other, 0, 0, true, 0⟩⟩

/-- The `Config` dataclass (UI-only fields such as `midi_path` omitted). -/
structure Config where
  base_c_midi : ℤ := 48
  transpose : ℤ := 0
  speed : ℚ := 1
  lead_in : ℚ := 2
  trim_silence : Bool := true
  always_tap : Bool := true
  tap_ms : ℤ := 18
  use_windows_map : Bool := false
  use_15_keys : Bool := false
  chromatic_15 : Bool := true
  squeeze_enabled : Bool := false
  squeeze_lo : ℤ := 3
  squeeze_hi : ℤ := 11
deriving DecidableEq, Repr

/-- Table `KEYS_15` from `main.py`. -/
def KEYS_15 : List Char :=
  ['a', 's', 'd', 'f', 'g', 'h', 'j', 'q', 'w', 'e', 'r', 't', 'y', 'u', 'i']

/-- List `DIATONIC_SEMITONES = [0, 2, 4, 5, 7, 9, 11]`. -/
def DIATONIC_SEMITONES : List ℤ := [0, 2, 4, 5, 7, 9, 11]

/-- Dict `SEMITONE_TO_DEGREE = {s: i for i, s in enumerate(DIATONIC_SEMITONES)}`. -/
def SEMITONE_TO_DEGREE : List (ℤ × ℤ) :=
  [(0, 0), (2, 1), (4, 2), (5, 3), (7, 4), (9, 5), (11, 6)]

/-- Top row of `get_keymaps` (`HIGH`), identical for both platforms. -/
def HIGH_MAP : List (ℤ × Char) :=
  [(0, 'q'), (1, '2'), (2, 'w'), (3, '3'), (4, 'e'), (5, 'r'),
   (6, '5'), (7, 't'), (8, '6'), (9, 'y'), (10, '7'), (11, 'u')]

/-- Middle row of `get_keymaps` (`MID`), identical for both platforms. -/
def MID_MAP : List (ℤ × Char) :=
  [(0, 'z'), (1, 's'), (2, 'x'), (3, 'd'), (4, 'c'), (5, 'v'),
   (6, 'g'), (7, 'b'), (8, 'h'), (9, 'n'), (10, 'j'), (11, 'm')]

/-- Bottom row of `get_keymaps` (`LOW`), Windows variant. -/
def LOW_MAP_WINDOWS : List (ℤ × Char) :=
  [(0, 'l'), (1, '.'), (2, ';'), (3, Char.ofNat 39), (4, '/'), (5, 'o'),
   (6, '0'), (7, 'p'), (8, '-'), (9, '['), (10, '='), (11, ']')]

/-- Bottom row of `get_keymaps` (`LOW`), Mac variant. -/
def LOW_MAP_MAC : List (ℤ × Char) :=
  [(0, ','), (1, 'l'), (2, '.'), (3, ';'), (4, '/'), (5, 'o'),
   (6, '0'), (7, 'p'), (8, '-'), (9, '['), (10, '='), (11, ']')]

/-- Function `get_keymaps(use_windows)`: returns `(LOW, MID, HIGH, HIGH_PLUS_C)`. -/
def get_keymaps (use_windows : Bool) :
    List (ℤ × Char) × List (ℤ × Char) × List (ℤ × Char) × Char :=
  (if use_windows then LOW_MAP_WINDOWS else LOW_MAP_MAC, MID_MAP, HIGH_MAP, 'i')

/-- Function `clamp_int(x, lo, hi)`: `lo if x < lo else hi if x > hi else x`. -/
def clamp_int (x lo hi : ℤ) : ℤ :=
  if x < lo then lo else if hi < x then hi else x

/-- Python's `round` on an exact rational: round to nearest, ties to even. -/
def round_half_even (q : ℚ) : ℤ :=
  if q - ⌊q⌋ < 1 / 2 then ⌊q⌋
  else if 1 / 2 < q - ⌊q⌋ then ⌊q⌋ + 1
  else if ⌊q⌋ % 2 = 0 then ⌊q⌋ else ⌊q⌋ + 1

/-- Function `squeeze_index(idx_0_14, lo, hi)`: map 0..14 into lo..hi monotonically. -/
def squeeze_index (idx_0_14 lo hi : ℤ) : ℤ :=
  let idx := clamp_int idx_0_14 0 14
  let lo1 := clamp_int lo 0 14
  let hi1 := clamp_int hi 0 14
  let lo2 := if hi1 < lo1 then hi1 else lo1
  let hi2 := if hi1 < lo1 then lo1 else hi1
  if lo2 = hi2 then lo2
  else clamp_int (lo2 + round_half_even ((idx * (hi2 - lo2) : ℤ) / (14 : ℚ))) lo2 hi2

/-- Function `_quantize_to_white_floor(semitone)`: map black notes down to the nearest
lower white note. -/
def _quantize_to_white_floor (semitone : ℤ) : ℤ :=
  if semitone ∈ DIATONIC_SEMITONES then semitone
  else
    match DIATONIC_SEMITONES.reverse.find? (fun s => decide (s ≤ semitone)) with
    | some s => s
    | none => 0

/-- Lookup `SEMITONE_TO_DEGREE[semitone]`; the `getD 0` arm is unreachable because
`_quantize_to_white_floor` always lands in the dict (proved in the bounds
theorem below). -/
def degree_of (semitone : ℤ) : ℤ :=
  (SEMITONE_TO_DEGREE.lookup semitone).getD 0

/-- Python list read `l[i]`: negative indices count from the end, out-of-range
raises IndexError (`none` here). -/
def pylist_get (l : List Char) (i : ℤ) : Option Char :=
  if 0 ≤ i then l.get? i.toNat
  else if 0 ≤ (l.length : ℤ) + i then l.get? ((l.length : ℤ) + i).toNat
  else none

/-- Index used at the `KEYS_15[idx]` read in the 15-key chromatic branch
(after the `0 <= idx < 15` guard). -/
def chrom_idx (cfg : Config) (d : ℤ) : ℤ :=
  if cfg.squeeze_enabled then squeeze_index d cfg.squeeze_lo cfg.squeeze_hi else d

/-- Index `octave * 7 + degree` computed in the 15-key diatonic branch. -/
def diat_idx_raw (d : ℤ) : ℤ :=
  (d / 12) * 7 + degree_of (_quantize_to_white_floor (d % 12))

/-- Index used at the `KEYS_15[idx]` read in the 15-key diatonic branch
(after the `0 <= idx < 15` guard). -/
def diat_idx (cfg : Config) (d : ℤ) : ℤ :=
  if cfg.squeeze_enabled then
    squeeze_index (diat_idx_raw d) cfg.squeeze_lo cfg.squeeze_hi
  else diat_idx_raw d

/-- Function `midi_note_to_key(note, cfg)`. -/
def midi_note_to_key (note : ℤ) (cfg : Config) : Option Char :=
  let d := note + cfg.transpose - cfg.base_c_midi
  if d < 0 then none
  else if cfg.use_15_keys then
    if cfg.chromatic_15 then
      if ¬(0 ≤ d ∧ d < 15) then none
      else pylist_get KEYS_15 (chrom_idx cfg d)
    else
      if ¬(0 ≤ diat_idx_raw d ∧ diat_idx_raw d < 15) then none
      else pylist_get KEYS_15 (diat_idx cfg d)
  else
    let km := get_keymaps cfg.use_windows_map
    let octave := d / 12
    let semitone := d % 12
    if octave = 0 then km.1.lookup semitone
    else if octave = 1 then km.2.1.lookup semitone
    else if octave = 2 then km.2.2.1.lookup semitone
    else if octave = 3 ∧ semitone = 0 then some km.2.2.2
    else none

/-- The `collect_abs_timed_messages` accumulator loop: `t += msg.time`. -/
def collect_go (t : ℚ) : List Msg → List (ℚ × Msg)
  | [] => []
  | m :: ms => (t + m.time, m) :: collect_go (t + m.time) ms

/-- Function `collect_abs_timed_messages(midi_path)` applied to the parsed message
sequence. -/
def collect_abs_timed_messages (msgs : List Msg) : List (ℚ × Msg) :=
  collect_go 0 msgs

/-- Predicate of the first scan of `find_trim_window`: positive-velocity
note_on. -/
def is_pos_note_on (p : ℚ × Msg) : Bool :=
  p.2.type == MsgType.note_on && decide (0 < p.2.velocity)

/-- Predicate of the second scan of `find_trim_window`: `note_off` or
`note_on` of any velocity. -/
def is_note_msg (p : ℚ × Msg) : Bool :=
  p.2.type == MsgType.note_off || p.2.type == MsgType.note_on

/-- Function `find_trim_window(timed)`. -/
def find_trim_window (timed : List (ℚ × Msg)) : ℚ × ℚ :=
  match timed with
  | [] => (0, 0)
  | _ :: _ =>
    let last_time := (timed.getLast? ).elim 0 Prod.fst
    let start := ((timed.find? is_pos_note_on).map Prod.fst).getD 0
    let stop := ((timed.reverse.find? is_note_msg).map Prod.fst).getD last_time
    if stop < start then (start, start) else (start, stop)

/-- Generator `group_by_time(timed, eps)`: yields `(t0, msgs)` chunks. -/
def group_by_time (eps : ℚ) : List (ℚ × Msg) → List (ℚ × List Msg)
  | [] => []
  | (t0, m) :: rest =>
    (t0, m :: (rest.takeWhile (fun p => decide (|p.1 - t0| ≤ eps))).map Prod.snd)
      :: group_by_time eps (rest.dropWhile (fun p => decide (|p.1 - t0| ≤ eps)))
termination_by l => l.length
decreasing_by
  simp only [List.length_cons]
  exact Nat.lt_succ_of_le (List.dropWhile_sublist _).length_le

/-- Variant of `group_by_time` keeping the timestamped pairs inside each
chunk; `group_by_time` is its image under dropping the per-message times. -/
def group_chunks (eps : ℚ) : List (ℚ × Msg) → List (List (ℚ × Msg))
  | [] => []
  | (t0, m) :: rest =>
    ((t0, m) :: rest.takeWhile (fun p => decide (|p.1 - t0| ≤ eps)))
      :: group_chunks eps (rest.dropWhile (fun p => decide (|p.1 - t0| ≤ eps)))
termination_by l => l.length
decreasing_by
  simp only [List.length_cons]
  exact Nat.lt_succ_of_le (List.dropWhile_sublist _).length_le

/-- Observable actions of `App._play_worker`, in emission order: the test of
the cooperative stop flag at the top of each loop iteration, `time.sleep`
calls, and the Quartz key-down / key-up postings. -/
inductive Ev where
  | checkStop : Bool → Ev
  | sleep : ℚ → Ev
  | press : Char → Ev
  | release : Char → Ev
deriving DecidableEq, Repr

/-- Value `tap_seconds = max(0.001, cfg.tap_ms / 1000.0)`. -/
def tap_seconds (cfg : Config) : ℚ :=
  max (1 / 1000) ((cfg.tap_ms : ℚ) / 1000)

/-- Constant `MIN_UP = 0.01`. -/
def MIN_UP : ℚ := 1 / 100

/-- Keys gathered for one group in tap mode, before deduplication: non-meta
positive-velocity `note_on` messages whose note maps to a key. -/
def raw_tap_keys (cfg : Config) (msgs : List Msg) : List Char :=
  msgs.filterMap fun m =>
    if m.is_meta then none
    else if m.type = MsgType.note_on ∧ 0 < m.velocity then midi_note_to_key m.note cfg
    else none

/-- The `seen`-set dedup loop
`keys = [k for k in keys if not (k in seen or seen.add(k))]`:
keeps the first occurrence of each key. -/
def pydedup_go (seen : List Char) : List Char → List Char
  | [] => []
  | k :: ks => if k ∈ seen then pydedup_go seen ks else k :: pydedup_go (k :: seen) ks

/-- First-occurrence deduplication, as the Python `seen` loop performs it. -/
def pydedup (l : List Char) : List Char := pydedup_go [] l

/-- The deduplicated key list pressed for one group in tap mode. -/
def tap_keys (cfg : Config) (msgs : List Msg) : List Char :=
  pydedup (raw_tap_keys cfg msgs)

/-- Events of one group in tap mode: press every key, and if any, sleep the
tap duration and release them all. -/
def tap_events (cfg : Config) (msgs : List Msg) : List Ev :=
  let ks := tap_keys cfg msgs
  ks.map Ev.press ++
    if ks.isEmpty then [] else Ev.sleep (tap_seconds cfg) :: ks.map Ev.release

/-- Read `key_down.get(k, False)` on the hold-mode dict (modelled as an
insertion-ordered association list, as Python dicts are). -/
def dict_get (kd : List (Char × Bool)) (k : Char) : Bool :=
  (kd.lookup k).getD false

/-- Write `key_down[k] = b`: update in place if present (keeping the original
insertion position, as Python dicts do), else append. -/
def dict_set (kd : List (Char × Bool)) (k : Char) (b : Bool) : List (Char × Bool) :=
  if (kd.lookup k).isSome then kd.map fun p => if p.1 = k then (k, b) else p
  else kd ++ [(k, b)]

/-- Hold-mode handling of a single message: re-strike an already-down key,
press a new one, or release on note_off / zero-velocity note_on. -/
def hold_step (cfg : Config) (kd : List (Char × Bool)) (m : Msg) :
    List (Char × Bool) × List Ev :=
  if m.is_meta then (kd, [])
  else if m.type = MsgType.note_on ∧ 0 < m.velocity then
    match midi_note_to_key m.note cfg with
    | none => (kd, [])
    | some k =>
      if dict_get kd k then
        (dict_set (dict_set kd k false) k true,
         [Ev.release k, Ev.sleep MIN_UP, Ev.press k])
      else (dict_set kd k true, [Ev.press k])
  else if m.type = MsgType.note_off ∨ (m.type = MsgType.note_on ∧ m.velocity = 0) then
    match midi_note_to_key m.note cfg with
    | none => (kd, [])
    | some k => if dict_get kd k then (dict_set kd k false, [Ev.release k]) else (kd, [])
  else (kd, [])

/-- Hold-mode handling of one group's message list. -/
def hold_events (cfg : Config) : List (Char × Bool) → List Msg →
    List (Char × Bool) × List Ev
  | kd, [] => (kd, [])
  | kd, m :: ms =>
    let st := hold_step cfg kd m
    let rest := hold_events cfg st.1 ms
    (rest.1, st.2 ++ rest.2)

/-- Body of one loop iteration after the stop test: the scaled inter-group
sleep followed by the tap- or hold-mode key events. -/
def group_events (cfg : Config) (prev t : ℚ) (kd : List (Char × Bool))
    (msgs : List Msg) : List (Char × Bool) × List Ev :=
  let dt := (t - prev) / max cfg.speed (1 / 1000000)
  let sleeps := if 0 < dt then [Ev.sleep dt] else []
  if cfg.always_tap then (kd, sleeps ++ tap_events cfg msgs)
  else
    let he := hold_events cfg kd msgs
    (he.1, sleeps ++ he.2)

/-- The `for t, msgs in groups` loop of `App._play_worker`. `stop i` is the
value `self._stop_event.is_set()` returns at the top of iteration `i`;
the loop breaks as soon as it is true. Returns the final `key_down` state
and the emitted events. -/
def run_groups (cfg : Config) (stop : ℕ → Bool) :
    ℕ → ℚ → List (Char × Bool) → List (ℚ × List Msg) →
    List (Char × Bool) × List Ev
  | _, _, kd, [] => (kd, [])
  | i, prev, kd, (t, msgs) :: rest =>
    if stop i then (kd, [Ev.checkStop true])
    else
      let ge := group_events cfg prev t kd msgs
      let r := run_groups cfg stop (i + 1) t ge.1 rest
      (r.1, Ev.checkStop false :: ge.2 ++ r.2)

/-- The `for k, down in list(key_down.items()): if down: kb.release(k)`
cleanup after the loop. -/
def final_release (kd : List (Char × Bool)) : List Ev :=
  (kd.filter fun p => p.2).map fun p => Ev.release p.1

/-- Event trace of `App._play_worker` on a nonempty group list:
`prev_t = groups[0][0]`, `key_down = {}`, run the loop, then release
whatever is still down. -/
def play_worker_events (cfg : Config) (stop : ℕ → Bool)
    (groups : List (ℚ × List Msg)) : List Ev :=
  match groups with
  | [] => []
  | g :: _ =>
    let r := run_groups cfg stop 0 g.1 [] groups
    r.2 ++ final_release r.1

/-- Effect of one emitted event on the set of keys the OS currently sees as
held down. -/
def apply_ev (s : Finset Char) : Ev → Finset Char
  | Ev.press k => insert k s
  | Ev.release k => s.erase k
  | _ => s

/-- Keys held down after a trace, starting from `s`. -/
def pressed_after (s : Finset Char) (evs : List Ev) : Finset Char :=
  evs.foldl apply_ev s

/-- The keys the `key_down` dict currently records as down. -/
def down_keys (kd : List (Char × Bool)) : Finset Char :=
  ((kd.filter fun p => p.2).map Prod.fst).toFinset

/-- Whether an event is a test of the stop flag. -/
def is_check_ev : Ev → Bool
  | Ev.checkStop _ => true
  | _ => false


lemma le_clamp_int (x lo hi : ℤ) (h : lo ≤ hi) : lo ≤ clamp_int x lo hi := by
  simp only [clamp_int]; split_ifs <;> omega

lemma clamp_int_le (x lo hi : ℤ) (h : lo ≤ hi) : clamp_int x lo hi ≤ hi := by
  simp only [clamp_int]; split_ifs <;> omega

lemma clamp_int_of_mem (x lo hi : ℤ) (h1 : lo ≤ x) (h2 : x ≤ hi) :
    clamp_int x lo hi = x := by
  simp only [clamp_int]; split_ifs <;> omega

lemma clamp_int_mono (x y lo hi : ℤ) (hlh : lo ≤ hi) (h : x ≤ y) :
    clamp_int x lo hi ≤ clamp_int y lo hi := by
  simp only [clamp_int]; split_ifs <;> omega

lemma round_half_even_ge_floor (q : ℚ) : ⌊q⌋ ≤ round_half_even q := by
  simp only [round_half_even]; split_ifs <;> omega

lemma round_half_even_le_floor_add_one (q : ℚ) : round_half_even q ≤ ⌊q⌋ + 1 := by
  simp only [round_half_even]; split_ifs <;> omega

lemma round_half_even_mono {a b : ℚ} (h : a ≤ b) :
    round_half_even a ≤ round_half_even b := by
  have hf : ⌊a⌋ ≤ ⌊b⌋ := Int.floor_le_floor h
  rcases eq_or_lt_of_le hf with heq | hlt
  · have hfr : a - (⌊a⌋ : ℚ) ≤ b - (⌊b⌋ : ℚ) := by
      rw [← heq]; linarith
    simp only [round_half_even, ← heq]
    split_ifs <;> first | omega | linarith
  · calc round_half_even a ≤ ⌊a⌋ + 1 := round_half_even_le_floor_add_one a
    _ ≤ ⌊b⌋ := by omega
    _ ≤ round_half_even b := round_half_even_ge_floor b

lemma round_half_even_intCast (n : ℤ) : round_half_even (n : ℚ) = n := by
  simp only [round_half_even, Int.floor_intCast, sub_self]
  norm_num

lemma squeeze_index_eq_of (i lo hi : ℤ) (hi0 : 0 ≤ i) (hi14 : i ≤ 14)
    (hlo : 0 ≤ lo) (hlohi : lo ≤ hi) (hhi : hi ≤ 14) (hne : lo ≠ hi) :
    squeeze_index i lo hi
      = clamp_int (lo + round_half_even (((i * (hi - lo) : ℤ) : ℚ) / 14)) lo hi := by
  simp only [squeeze_index,
    clamp_int_of_mem i 0 14 hi0 hi14,
    clamp_int_of_mem lo 0 14 hlo (le_trans hlohi hhi),
    clamp_int_of_mem hi 0 14 (le_trans hlo hlohi) hhi,
    if_neg (not_lt.mpr hlohi), if_neg hne]

lemma squeeze_index_eq_self (i lo : ℤ) (hlo : 0 ≤ lo) (hhi : lo ≤ 14) :
    squeeze_index i lo lo = lo := by
  simp only [squeeze_index, clamp_int_of_mem lo 0 14 hlo hhi, lt_self_iff_false,
    if_false, if_pos rfl]
  simp

lemma squeeze_index_bounds (i lo hi : ℤ) :
    0 ≤ squeeze_index i lo hi ∧ squeeze_index i lo hi ≤ 14 := by
  have h0 : (0 : ℤ) ≤ 14 := by omega
  have hlo1 := le_clamp_int lo 0 14 h0
  have hlo2 := clamp_int_le lo 0 14 h0
  have hhi1 := le_clamp_int hi 0 14 h0
  have hhi2 := clamp_int_le hi 0 14 h0
  simp only [squeeze_index]
  split_ifs with hswap heq heq
  · omega
  · constructor
    · exact le_trans hhi1 (le_clamp_int _ _ _ (by omega))
    · exact le_trans (clamp_int_le _ _ _ (by omega)) hlo2
  · omega
  · constructor
    · exact le_trans hlo1 (le_clamp_int _ _ _ (by omega))
    · exact le_trans (clamp_int_le _ _ _ (by omega)) hhi2

lemma quantize_mem_diatonic (s : ℤ) :
    _quantize_to_white_floor s ∈ DIATONIC_SEMITONES := by
  simp only [_quantize_to_white_floor]
  split_ifs with h
  · exact h
  · rcases hfind : DIATONIC_SEMITONES.reverse.find? (fun x => decide (x ≤ s)) with _ | x
    · simp [DIATONIC_SEMITONES]
    · have := List.mem_of_find?_eq_some hfind
      simpa [DIATONIC_SEMITONES] using List.mem_reverse.mp this

lemma diatonic_lookup_isSome (x : ℤ) (h : x ∈ DIATONIC_SEMITONES) :
    (SEMITONE_TO_DEGREE.lookup x).isSome = true := by
  simp only [DIATONIC_SEMITONES, List.mem_cons, List.not_mem_nil, or_false] at h
  rcases h with h | h | h | h | h | h | h <;> subst h <;> decide

/-- C2: `squeeze_index` is a monotone linear range compression: for
`0 ≤ i ≤ j ≤ 14` and `0 ≤ lo ≤ hi ≤ 14` it maps into `[lo, hi]`
monotonically and fixes the endpoints `0 ↦ lo`, `14 ↦ hi`. -/
theorem squeeze_index_monotone_spec (i j lo hi : ℤ)
    (h0i : 0 ≤ i) (hij : i ≤ j) (hj14 : j ≤ 14)
    (h0lo : 0 ≤ lo) (hlohi : lo ≤ hi) (hhi14 : hi ≤ 14) :
    lo ≤ squeeze_index i lo hi
    ∧ squeeze_index i lo hi ≤ squeeze_index j lo hi
    ∧ squeeze_index j lo hi ≤ hi
    ∧ squeeze_index 0 lo hi = lo
    ∧ squeeze_index 14 lo hi = hi := by
  rcases eq_or_lt_of_le hlohi with heq | hlt
  · subst heq
    rw [squeeze_index_eq_self i lo h0lo hhi14, squeeze_index_eq_self j lo h0lo hhi14,
      squeeze_index_eq_self 0 lo h0lo hhi14, squeeze_index_eq_self 14 lo h0lo hhi14]
    omega
  · have hne : lo ≠ hi := ne_of_lt hlt
    have h0j : 0 ≤ j := le_trans h0i hij
    have hi14 : i ≤ 14 := le_trans hij hj14
    rw [squeeze_index_eq_of i lo hi h0i hi14 h0lo hlohi hhi14 hne,
      squeeze_index_eq_of j lo hi h0j hj14 h0lo hlohi hhi14 hne,
      squeeze_index_eq_of 0 lo hi le_rfl (by omega) h0lo hlohi hhi14 hne,
      squeeze_index_eq_of 14 lo hi (by omega) le_rfl h0lo hlohi hhi14 hne]
    refine ⟨le_clamp_int _ _ _ hlohi, ?_, clamp_int_le _ _ _ hlohi, ?_, ?_⟩
    · apply clamp_int_mono _ _ _ _ hlohi
      have hmul : i * (hi - lo) ≤ j * (hi - lo) :=
        mul_le_mul_of_nonneg_right hij (by omega)
      have hq : ((i * (hi - lo) : ℤ) : ℚ) / 14 ≤ ((j * (hi - lo) : ℤ) : ℚ) / 14 := by
        apply div_le_div_of_nonneg_right _ (by norm_num)
        exact_mod_cast hmul
      exact add_le_add_left (round_half_even_mono hq) lo
    · have hz : ((0 * (hi - lo) : ℤ) : ℚ) / 14 = ((0 : ℤ) : ℚ) := by
        push_cast; ring
      rw [hz, round_half_even_intCast, add_zero]
      exact clamp_int_of_mem lo lo hi le_rfl hlohi
    · have h14 : ((14 * (hi - lo) : ℤ) : ℚ) / 14 = ((hi - lo : ℤ) : ℚ) := by
        push_cast; ring
      rw [h14, round_half_even_intCast]
      have : lo + (hi - lo) = hi := by ring
      rw [this]
      exact clamp_int_of_mem hi lo hi hlohi le_rfl

theorem squeeze_index_monotone_spec_witness :
    (3 : ℤ) ≤ squeeze_index 5 3 11
    ∧ squeeze_index 5 3 11 ≤ squeeze_index 9 3 11
    ∧ squeeze_index 9 3 11 ≤ 11
    ∧ squeeze_index 0 3 11 = 3
    ∧ squeeze_index 14 3 11 = 11 :=
  squeeze_index_monotone_spec 5 9 3 11 (by decide) (by decide) (by decide)
    (by decide) (by decide) (by decide)

/-- C10: every read of `KEYS_15[idx]` in `midi_note_to_key` is in bounds:
`squeeze_index` is total with range inside `[0, 14]` for arbitrary integer
arguments (including swapped or equal bounds), `_quantize_to_white_floor`
always lands in the domain of `SEMITONE_TO_DEGREE`, and the chromatic and
diatonic indices are in `[0, 15)` whenever the guard preceding the read
passed. -/
theorem keys15_index_in_bounds_spec :
    (∀ i lo hi : ℤ, 0 ≤ squeeze_index i lo hi ∧ squeeze_index i lo hi ≤ 14)
    ∧ (∀ s : ℤ, _quantize_to_white_floor s ∈ DIATONIC_SEMITONES
        ∧ (SEMITONE_TO_DEGREE.lookup (_quantize_to_white_floor s)).isSome = true)
    ∧ (∀ (cfg : Config) (d : ℤ), 0 ≤ d → d < 15 →
        0 ≤ chrom_idx cfg d ∧ chrom_idx cfg d < 15)
    ∧ (∀ (cfg : Config) (d : ℤ), 0 ≤ diat_idx_raw d → diat_idx_raw d < 15 →
        0 ≤ diat_idx cfg d ∧ diat_idx cfg d < 15) := by
  refine ⟨fun i lo hi => squeeze_index_bounds i lo hi,
    fun s => ⟨quantize_mem_diatonic s,
      diatonic_lookup_isSome _ (quantize_mem_diatonic s)⟩, ?_, ?_⟩
  · intro cfg d h0 h15
    simp only [chrom_idx]; split_ifs with h
    · have := squeeze_index_bounds d cfg.squeeze_lo cfg.squeeze_hi; omega
    · omega
  · intro cfg d h0 h15
    simp only [diat_idx]; split_ifs with h
    · have := squeeze_index_bounds (diat_idx_raw d) cfg.squeeze_lo cfg.squeeze_hi
      omega
    · omega

theorem keys15_index_in_bounds_spec_witness :
    0 ≤ chrom_idx { squeeze_enabled := true } 7
    ∧ chrom_idx { squeeze_enabled := true } 7 < 15 :=
  keys15_index_in_bounds_spec.2.2.1 { squeeze_enabled := true } 7
    (by decide) (by decide)

/-- C9: notes whose transposed value lies below the configured base C are
dropped: `midi_note_to_key` returns `none` in every layout mode, with no
clamping or wrapping. -/
theorem midi_note_to_key_below_base_none (cfg : Config) (note : ℤ)
    (h : note + cfg.transpose < cfg.base_c_midi) :
    midi_note_to_key note cfg = none := by
  have hd : note + cfg.transpose - cfg.base_c_midi < 0 := by omega
  simp [midi_note_to_key, hd]

theorem midi_note_to_key_below_base_none_witness :
    midi_note_to_key 40 {} = none :=
  midi_note_to_key_below_base_none {} 40 (by decide)

/-- C1: in 21-key mode, with `d = note + transpose - base_c_midi ≥ 0`,
`midi_note_to_key` looks up the table row selected by `octave = d // 12`
(LOW/MID/HIGH for 0/1/2, Windows or Mac LOW row by `use_windows_map`) at
`semitone = d % 12`; octave 3 yields the extra high C exactly at
semitone 0, and everything beyond (`d ≥ 36` with nonzero semitone, or
octave ≥ 4) yields no key. -/
theorem midi_note_to_key_21key_spec (cfg : Config) (note d : ℤ)
    (h15 : cfg.use_15_keys = false)
    (hdef : d = note + cfg.transpose - cfg.base_c_midi) (hd : 0 ≤ d) :
    (d / 12 = 0 → midi_note_to_key note cfg
      = (get_keymaps cfg.use_windows_map).1.lookup (d % 12))
    ∧ (d / 12 = 1 → midi_note_to_key note cfg
      = (get_keymaps cfg.use_windows_map).2.1.lookup (d % 12))
    ∧ (d / 12 = 2 → midi_note_to_key note cfg
      = (get_keymaps cfg.use_windows_map).2.2.1.lookup (d % 12))
    ∧ (d / 12 = 3 → midi_note_to_key note cfg
      = if d % 12 = 0 then some (get_keymaps cfg.use_windows_map).2.2.2 else none)
    ∧ (36 ≤ d → d % 12 ≠ 0 → midi_note_to_key note cfg = none)
    ∧ (4 ≤ d / 12 → midi_note_to_key note cfg = none) := by
  subst hdef
  simp only [midi_note_to_key, h15, Bool.false_eq_true, if_false,
    if_neg (not_lt.mpr hd)]
  refine ⟨?_, ?_, ?_, ?_, ?_, ?_⟩ <;> intro h1
  · rw [if_pos h1]
  · rw [if_neg (by omega), if_pos h1]
  · rw [if_neg (by omega), if_neg (by omega), if_pos h1]
  · rw [if_neg (by omega), if_neg (by omega), if_neg (by omega)]
    by_cases h0 : (note + cfg.transpose - cfg.base_c_midi) % 12 = 0
    · rw [if_pos ⟨h1, h0⟩, if_pos h0]
    · rw [if_neg (fun hc => h0 hc.2), if_neg h0]
  · intro h2
    have hdiv : 3 ≤ (note + cfg.transpose - cfg.base_c_midi) / 12 := by omega
    rw [if_neg (by omega), if_neg (by omega), if_neg (by omega),
      if_neg (by tauto)]
  · rw [if_neg (by omega), if_neg (by omega), if_neg (by omega),
      if_neg (by rintro ⟨h2, -⟩; omega)]

theorem midi_note_to_key_21key_spec_witness :
    (midi_note_to_key 62 {} = (get_keymaps false).2.1.lookup 2)
    ∧ midi_note_to_key 62 {} = some 'x' := by
  constructor
  · exact (midi_note_to_key_21key_spec {} 62 14 rfl (by decide) (by decide)).2.1
      (by decide)
  · decide

lemma collect_go_map_snd (t : ℚ) (msgs : List Msg) :
    (collect_go t msgs).map Prod.snd = msgs := by
  induction msgs generalizing t with
  | nil => rfl
  | cons m ms ih => simp [collect_go, ih]

lemma collect_go_get? (t : ℚ) (msgs : List Msg) (i : ℕ) (h : i < msgs.length) :
    ((collect_go t msgs).get? i).map Prod.fst
      = some (t + ((msgs.take (i + 1)).map Msg.time).sum) := by
  induction msgs generalizing t i with
  | nil => simp at h
  | cons m ms ih =>
    cases i with
    | zero => simp [collect_go]
    | succ n =>
      have hn : n < ms.length := by simpa using h
      simp only [collect_go, List.get?_cons_succ, List.take_succ_cons,
        List.map_cons, List.sum_cons, ih (t + m.time) n hn]
      rw [add_assoc]

/-- C8: `collect_abs_timed_messages` emits one entry per message, in input
order, and the `i`-th timestamp is the running sum of the delta times of
messages `0..i`. -/
theorem collect_abs_timed_messages_spec (msgs : List Msg) :
    (collect_abs_timed_messages msgs).map Prod.snd = msgs
    ∧ ∀ i : ℕ, i < msgs.length →
      ((collect_abs_timed_messages msgs).get? i).map Prod.fst
        = some (((msgs.take (i + 1)).map Msg.time).sum) := by
  refine ⟨collect_go_map_snd 0 msgs, fun i h => ?_⟩
  rw [collect_abs_timed_messages, collect_go_get? 0 msgs i h, zero_add]

theorem collect_abs_timed_messages_spec_witness :
    ((collect_abs_timed_messages
        [⟨MsgType.note_on, 60, 64, false, 1/2⟩,
         ⟨MsgType.note_off, 60, 0, false, 1/4⟩]).get? 1).map Prod.fst
      = some ((([⟨MsgType.note_on, 60, 64, false, 1/2⟩,
          ⟨MsgType.note_off, 60, 0, false, (1:ℚ)/4⟩] : List Msg).take 2).map
            Msg.time).sum :=
  (collect_abs_timed_messages_spec _).2 1 (by decide)

lemma group_chunks_flatten (eps : ℚ) (l : List (ℚ × Msg)) :
    (group_chunks eps l).flatten = l := by
  induction l using group_chunks.induct eps with
  | case1 => simp [group_chunks]
  | case2 t0 m rest ih =>
    simp [group_chunks, ih, List.takeWhile_append_dropWhile]

lemma group_by_time_eq_chunks (eps : ℚ) (l : List (ℚ × Msg)) :
    group_by_time eps l
      = (group_chunks eps l).map fun c => (c.headI.1, c.map Prod.snd) := by
  induction l using group_chunks.induct eps with
  | case1 => simp [group_by_time, group_chunks]
  | case2 t0 m rest ih =>
    simp [group_by_time, group_chunks, ih]

lemma group_chunks_nonempty_close (eps : ℚ) (heps : 0 ≤ eps)
    (l : List (ℚ × Msg)) :
    ∀ c ∈ group_chunks eps l, c ≠ [] ∧ ∀ p ∈ c, |p.1 - c.headI.1| ≤ eps := by
  induction l using group_chunks.induct eps with
  | case1 => simp [group_chunks]
  | case2 t0 m rest ih =>
    intro c hc
    rw [group_chunks] at hc
    rcases List.mem_cons.mp hc with hc | hc
    · subst hc
      refine ⟨by simp, ?_⟩
      intro p hp
      rcases List.mem_cons.mp hp with hp | hp
      · subst hp; simpa using heps
      · have := List.mem_takeWhile_imp hp
        simpa using of_decide_eq_true this
    · exact ih c hc

/-- C3: `group_by_time` partitions its input without loss or reordering:
the concatenation of the yielded message lists is the original message
sequence in order; viewed through `group_chunks` (the same recursion
keeping the timestamped pairs), every chunk is nonempty, its group
timestamp is the timestamp of its first message, and every message of a
chunk lies within `eps` of that timestamp. -/
theorem group_by_time_partition_spec (eps : ℚ) (timed : List (ℚ × Msg))
    (heps : 0 ≤ eps) :
    ((group_by_time eps timed).map Prod.snd).flatten = timed.map Prod.snd
    ∧ (group_chunks eps timed).flatten = timed
    ∧ group_by_time eps timed
        = ((group_chunks eps timed).map fun c => (c.headI.1, c.map Prod.snd))
    ∧ ∀ c ∈ group_chunks eps timed, c ≠ []
        ∧ ∀ p ∈ c, |p.1 - c.headI.1| ≤ eps := by
  refine ⟨?_, group_chunks_flatten eps timed, group_by_time_eq_chunks eps timed,
    group_chunks_nonempty_close eps heps timed⟩
  rw [group_by_time_eq_chunks, List.map_map]
  rw [show (Prod.snd ∘ fun c : List (ℚ × Msg) => (c.headI.1, c.map Prod.snd))
      = fun c => c.map Prod.snd from rfl]
  rw [← List.map_flatten, group_chunks_flatten]

theorem group_by_time_partition_spec_witness :
    ((group_by_time 1 [((0 : ℚ), (default : Msg)), ((5 : ℚ), (default : Msg))]).map
        Prod.snd).flatten
      = ([((0 : ℚ), (default : Msg)), ((5 : ℚ), (default : Msg))]).map Prod.snd :=
  (group_by_time_partition_spec 1 _ (by norm_num)).1

/-- C5: on input with nondecreasing timestamps, consecutive groups yielded
by `group_by_time` have timestamps more than `eps` apart, so the playback
loop, which consumes the groups in yielded order, emits them in strictly
increasing timestamp order. -/
theorem group_by_time_times_increasing (eps : ℚ) (timed : List (ℚ × Msg))
    (hs : List.Pairwise (fun p q : ℚ × Msg => p.1 ≤ q.1) timed) :
    List.Chain' (fun a b : ℚ => a + eps < b)
      ((group_by_time eps timed).map Prod.fst) := by
  induction timed using group_chunks.induct eps with
  | case1 => simp [group_by_time]
  | case2 t0 m rest ih =>
    rcases List.pairwise_cons.mp hs with ⟨hhead, htail⟩
    have hdp : List.Pairwise (fun p q : ℚ × Msg => p.1 ≤ q.1)
        (rest.dropWhile fun p => decide (|p.1 - t0| ≤ eps)) :=
      List.Pairwise.sublist (List.dropWhile_sublist _) htail
    rcases hdrop : rest.dropWhile (fun p => decide (|p.1 - t0| ≤ eps))
      with _ | ⟨⟨x1, x2⟩, xs⟩
    · simp only [group_by_time, hdrop, List.map_cons]
      simp [group_by_time]
    · simp only [group_by_time, hdrop, List.map_cons]
      rw [List.chain'_cons']
      refine ⟨?_, by simpa [group_by_time, hdrop] using ih hdp⟩
      intro b hb
      simp only [group_by_time, List.head?_cons, Option.mem_def,
        Option.some_inj] at hb
      subst hb
      have hxrest : ((x1, x2) : ℚ × Msg) ∈ rest := by
        apply (List.dropWhile_sublist
          (fun p : ℚ × Msg => decide (|p.1 - t0| ≤ eps))).subset
        rw [hdrop]; exact List.mem_cons_self _ _
      have ht0 : t0 ≤ x1 := hhead _ hxrest
      have hpred : ¬ (|x1 - t0| ≤ eps) := by
        have hh := List.head?_dropWhile_not
          (fun p : ℚ × Msg => decide (|p.1 - t0| ≤ eps)) rest
        rw [hdrop] at hh
        simpa using hh
      rw [abs_of_nonneg (by linarith)] at hpred
      linarith

theorem group_by_time_times_increasing_witness :
    List.Chain' (fun a b : ℚ => a + 1 < b)
      ((group_by_time 1 [((0 : ℚ), (default : Msg)),
        ((3 : ℚ), (default : Msg))]).map Prod.fst) :=
  group_by_time_times_increasing 1 _ (by norm_num [List.pairwise_cons])

lemma find?_first_le (l : List (ℚ × Msg)) (pr : ℚ × Msg → Bool)
    (hs : List.Pairwise (fun p q : ℚ × Msg => p.1 ≤ q.1) l)
    (p : ℚ × Msg) (hp : p ∈ l) (hpred : pr p = true) :
    ∃ q, l.find? pr = some q ∧ q.1 ≤ p.1 := by
  induction l with
  | nil => cases hp
  | cons a as ih =>
    rcases List.pairwise_cons.mp hs with ⟨hhead, htail⟩
    by_cases ha : pr a = true
    · refine ⟨a, List.find?_cons_of_pos _ ha, ?_⟩
      rcases List.mem_cons.mp hp with rfl | hp'
      · exact le_refl _
      · exact hhead _ hp'
    · rcases List.mem_cons.mp hp with rfl | hp'
      · exact absurd hpred ha
      · obtain ⟨q, hq1, hq2⟩ := ih htail hp'
        exact ⟨q, by rw [List.find?_cons_of_neg _ ha]; exact hq1, hq2⟩

lemma find?_first_ge (l : List (ℚ × Msg)) (pr : ℚ × Msg → Bool)
    (hs : List.Pairwise (fun p q : ℚ × Msg => q.1 ≤ p.1) l)
    (p : ℚ × Msg) (hp : p ∈ l) (hpred : pr p = true) :
    ∃ q, l.find? pr = some q ∧ p.1 ≤ q.1 := by
  induction l with
  | nil => cases hp
  | cons a as ih =>
    rcases List.pairwise_cons.mp hs with ⟨hhead, htail⟩
    by_cases ha : pr a = true
    · refine ⟨a, List.find?_cons_of_pos _ ha, ?_⟩
      rcases List.mem_cons.mp hp with rfl | hp'
      · exact le_refl _
      · exact hhead _ hp'
    · rcases List.mem_cons.mp hp with rfl | hp'
      · exact absurd hpred ha
      · obtain ⟨q, hq1, hq2⟩ := ih htail hp'
        exact ⟨q, by rw [List.find?_cons_of_neg _ ha]; exact hq1, hq2⟩

lemma find_trim_window_le (l : List (ℚ × Msg)) :
    (find_trim_window l).1 ≤ (find_trim_window l).2 := by
  rcases l with _ | ⟨a, as⟩
  · simp [find_trim_window]
  · simp only [find_trim_window]
    split_ifs with h
    · exact le_refl _
    · simpa using le_of_not_lt h

/-- C4 (amended): on a timed list with nondecreasing timestamps, the trim
window keeps every positive-velocity `note_on`; and on every list whatsoever
`find_trim_window` returns `start ≤ end`. -/
theorem find_trim_window_sorted_spec (timed : List (ℚ × Msg))
    (hs : List.Pairwise (fun p q : ℚ × Msg => p.1 ≤ q.1) timed) :
    (∀ p ∈ timed, p.2.type = MsgType.note_on → 0 < p.2.velocity →
      (find_trim_window timed).1 ≤ p.1 ∧ p.1 ≤ (find_trim_window timed).2)
    ∧ ∀ l : List (ℚ × Msg), (find_trim_window l).1 ≤ (find_trim_window l).2 := by
  refine ⟨?_, find_trim_window_le⟩
  intro p hp htype hvel
  have hpred : is_pos_note_on p = true := by
    simp [is_pos_note_on, htype, hvel]
  have hpredn : is_note_msg p = true := by
    simp [is_note_msg, htype]
  obtain ⟨q, hq1, hq2⟩ := find?_first_le timed is_pos_note_on hs p hp hpred
  have hrs : List.Pairwise (fun a b : ℚ × Msg => b.1 ≤ a.1) timed.reverse := by
    rw [List.pairwise_reverse]; exact hs
  obtain ⟨r, hr1, hr2⟩ := find?_first_ge timed.reverse is_note_msg hrs p
    (List.mem_reverse.mpr hp) hpredn
  rcases timed with _ | ⟨a, as⟩
  · cases hp
  · simp only [find_trim_window, hq1, hr1, Option.map_some', Option.getD_some]
    rw [if_neg (by push_neg; linarith)]
    exact ⟨hq2, hr2⟩

theorem find_trim_window_sorted_spec_witness :
    (find_trim_window [((1 : ℚ), (⟨MsgType.note_on, 60, 1, false, 0⟩ : Msg)),
        ((2 : ℚ), (⟨MsgType.note_off, 60, 0, false, 0⟩ : Msg))]).1 ≤ 1
    ∧ (1 : ℚ) ≤ (find_trim_window
        [((1 : ℚ), (⟨MsgType.note_on, 60, 1, false, 0⟩ : Msg)),
         ((2 : ℚ), (⟨MsgType.note_off, 60, 0, false, 0⟩ : Msg))]).2 :=
  (find_trim_window_sorted_spec _
      (by norm_num [List.pairwise_cons])).1
    ((1 : ℚ), (⟨MsgType.note_on, 60, 1, false, 0⟩ : Msg))
    (List.mem_cons_self _ _) rfl (by decide)

/-- C4 counterexample: on a list whose timestamps are not nondecreasing, the
window returned by `find_trim_window` excludes a positive-velocity
`note_on`: with input `[(5, note_on), (3, note_on)]` the window is `(5, 5)`
and the note at timestamp 3 falls outside it. -/
theorem find_trim_window_drops_note_cex :
    ((3 : ℚ), (⟨MsgType.note_on, 60, 1, false, 0⟩ : Msg))
        ∈ [((5 : ℚ), (⟨MsgType.note_on, 60, 1, false, 0⟩ : Msg)),
           ((3 : ℚ), (⟨MsgType.note_on, 60, 1, false, 0⟩ : Msg))]
    ∧ (⟨MsgType.note_on, 60, 1, false, 0⟩ : Msg).type = MsgType.note_on
    ∧ (0 : ℤ) < (⟨MsgType.note_on, 60, 1, false, 0⟩ : Msg).velocity
    ∧ ¬((find_trim_window
          [((5 : ℚ), (⟨MsgType.note_on, 60, 1, false, 0⟩ : Msg)),
           ((3 : ℚ), (⟨MsgType.note_on, 60, 1, false, 0⟩ : Msg))]).1 ≤ 3
        ∧ (3 : ℚ) ≤ (find_trim_window
          [((5 : ℚ), (⟨MsgType.note_on, 60, 1, false, 0⟩ : Msg)),
           ((3 : ℚ), (⟨MsgType.note_on, 60, 1, false, 0⟩ : Msg))]).2) := by
  refine ⟨List.mem_cons_of_mem _ (List.mem_cons_self _ _), rfl, by decide, ?_⟩
  have hw : find_trim_window
      [((5 : ℚ), (⟨MsgType.note_on, 60, 1, false, 0⟩ : Msg)),
       ((3 : ℚ), (⟨MsgType.note_on, 60, 1, false, 0⟩ : Msg))] = (5, 5) := by
    norm_num [find_trim_window, is_pos_note_on, is_note_msg, List.find?]
  rw [hw]
  norm_num

lemma pressed_after_append (s : Finset Char) (e1 e2 : List Ev) :
    pressed_after s (e1 ++ e2) = pressed_after (pressed_after s e1) e2 :=
  List.foldl_append _ _ _ _

lemma pressed_after_press_map (s : Finset Char) (ks : List Char) :
    pressed_after s (ks.map Ev.press) = s ∪ ks.toFinset := by
  induction ks generalizing s with
  | nil => simp [pressed_after]
  | cons k ks ih =>
    simp only [List.map_cons, pressed_after, List.foldl_cons] at *
    rw [show apply_ev s (Ev.press k) = insert k s from rfl, ih]
    ext a; simp; try tauto

lemma pressed_after_release_map (s : Finset Char) (ks : List Char) :
    pressed_after s (ks.map Ev.release) = s \ ks.toFinset := by
  induction ks generalizing s with
  | nil => simp [pressed_after]
  | cons k ks ih =>
    simp only [List.map_cons, pressed_after, List.foldl_cons] at *
    rw [show apply_ev s (Ev.release k) = s.erase k from rfl, ih]
    ext a; simp [Finset.mem_erase]; tauto

lemma pydedup_go_nodup (seen : List Char) (l : List Char) :
    (pydedup_go seen l).Nodup ∧ ∀ x ∈ pydedup_go seen l, x ∉ seen := by
  induction l generalizing seen with
  | nil => simp [pydedup_go]
  | cons k ks ih =>
    by_cases hk : k ∈ seen
    · rw [pydedup_go, if_pos hk]
      exact ih seen
    · rw [pydedup_go, if_neg hk]
      obtain ⟨h1, h2⟩ := ih (k :: seen)
      refine ⟨List.nodup_cons.mpr ⟨fun hmem => ?_, h1⟩, ?_⟩
      · exact (h2 k hmem) (List.mem_cons_self _ _)
      · intro x hx
        rcases List.mem_cons.mp hx with rfl | hx'
        · exact hk
        · exact fun hxs => (h2 x hx') (List.mem_cons_of_mem _ hxs)

lemma pydedup_go_toFinset (seen : List Char) (l : List Char) :
    (pydedup_go seen l).toFinset = l.toFinset \ seen.toFinset := by
  induction l generalizing seen with
  | nil => simp [pydedup_go]
  | cons k ks ih =>
    by_cases hk : k ∈ seen
    · rw [pydedup_go, if_pos hk, ih]
      ext a
      simp only [Finset.mem_sdiff, List.toFinset_cons, Finset.mem_insert,
        List.mem_toFinset]
      constructor
      · rintro ⟨h1, h2⟩; exact ⟨Or.inr h1, h2⟩
      · rintro ⟨h1 | h1, h2⟩
        · subst h1; exact absurd hk h2
        · exact ⟨h1, h2⟩
    · rw [pydedup_go, if_neg hk]
      ext a
      simp only [List.toFinset_cons, Finset.mem_insert, List.mem_toFinset,
        ih (k :: seen), Finset.mem_sdiff, List.toFinset_cons, Finset.mem_insert,
        List.mem_toFinset, List.mem_cons]
      constructor
      · rintro (rfl | ⟨h1, h2⟩)
        · exact ⟨Or.inl rfl, hk⟩
        · exact ⟨Or.inr h1, fun hs => h2 (Or.inr hs)⟩
      · rintro ⟨rfl | h1, h2⟩
        · exact Or.inl rfl
        · by_cases hak : a = k
          · exact Or.inl hak
          · exact Or.inr ⟨h1, fun hs => (by tauto : False)⟩

lemma pydedup_nodup (l : List Char) : (pydedup l).Nodup :=
  (pydedup_go_nodup [] l).1

lemma pydedup_toFinset (l : List Char) : (pydedup l).toFinset = l.toFinset := by
  rw [pydedup, pydedup_go_toFinset]; simp

lemma down_keys_cons (c : Char) (d : Bool) (rest : List (Char × Bool)) :
    down_keys ((c, d) :: rest)
      = if d then insert c (down_keys rest) else down_keys rest := by
  cases d <;> simp [down_keys, List.filter_cons]

lemma down_keys_append_single (kd : List (Char × Bool)) (k : Char) (b : Bool) :
    down_keys (kd ++ [(k, b)])
      = if b then insert k (down_keys kd) else down_keys kd := by
  induction kd with
  | nil => cases b <;> simp [down_keys, List.filter_cons]
  | cons a rest ih =>
    obtain ⟨c, d⟩ := a
    rw [List.cons_append, down_keys_cons, down_keys_cons, ih]
    cases d <;> cases b <;> simp [Finset.Insert.comm]

lemma down_keys_map_false (kd : List (Char × Bool)) (k : Char) :
    down_keys (kd.map fun p => if p.1 = k then (k, false) else p)
      = (down_keys kd).erase k := by
  induction kd with
  | nil => simp [down_keys]
  | cons a rest ih =>
    obtain ⟨c, d⟩ := a
    rw [List.map_cons]
    by_cases hc : c = k
    · subst hc
      have hmap : (if ((c, d) : Char × Bool).1 = c then (c, false) else (c, d))
          = (c, false) := if_pos rfl
      rw [hmap, down_keys_cons, down_keys_cons, ih, if_neg (by simp)]
      cases d
      · rw [if_neg (by simp)]
      · rw [if_pos rfl]
        ext a
        simp only [Finset.mem_erase, Finset.mem_insert]
        tauto
    · have hmap : (if ((c, d) : Char × Bool).1 = k then (k, false) else (c, d))
          = (c, d) := if_neg (by simpa using hc)
      rw [hmap, down_keys_cons, down_keys_cons, ih]
      cases d
      · rw [if_neg (by simp), if_neg (by simp)]
      · rw [if_pos rfl, if_pos rfl]
        ext a
        simp only [Finset.mem_erase, Finset.mem_insert]
        constructor
        · rintro (rfl | ⟨h1, h2⟩)
          · exact ⟨hc, Or.inl rfl⟩
          · exact ⟨h1, Or.inr h2⟩
        · rintro ⟨h1, rfl | h2⟩
          · exact Or.inl rfl
          · exact Or.inr ⟨h1, h2⟩

lemma down_keys_map_true (kd : List (Char × Bool)) (k : Char) :
    down_keys (kd.map fun p => if p.1 = k then (k, true) else p)
      = if (kd.lookup k).isSome then insert k (down_keys kd)
        else down_keys kd := by
  induction kd with
  | nil => simp [down_keys]
  | cons a rest ih =>
    obtain ⟨c, d⟩ := a
    rw [List.map_cons]
    by_cases hc : c = k
    · subst hc
      have hmap : (if ((c, d) : Char × Bool).1 = c then (c, true) else (c, d))
          = (c, true) := if_pos rfl
      rw [hmap, down_keys_cons, down_keys_cons, ih, List.lookup_cons_self]
      cases hrl : (rest.lookup c).isSome <;> cases d <;>
        simp [hrl, Finset.insert_idem]
    · have hmap : (if ((c, d) : Char × Bool).1 = k then (k, true) else (c, d))
          = (c, d) := if_neg (by simpa using hc)
      have hlk : (((c, d) :: rest).lookup k) = rest.lookup k := by
        rw [List.lookup_cons]
        have hbeq : (k == c) = false := by
          simp only [beq_eq_false_iff_ne, ne_eq]
          exact fun h => hc h.symm
        rw [hbeq]
      rw [hmap, down_keys_cons, down_keys_cons, ih, hlk]
      cases hrl : (rest.lookup k).isSome <;> cases d <;>
        simp [hrl, Finset.Insert.comm]

lemma mem_down_keys_lookup_isSome (kd : List (Char × Bool)) (k : Char)
    (h : k ∈ down_keys kd) : (kd.lookup k).isSome = true := by
  simp only [down_keys, List.mem_toFinset, List.mem_map] at h
  obtain ⟨p, hp, rfl⟩ := h
  have hpkd : p ∈ kd := List.mem_of_mem_filter hp
  simp only [List.lookup_isSome_iff]
  exact ⟨p, hpkd, by simp⟩

lemma down_keys_set_true (kd : List (Char × Bool)) (k : Char) :
    down_keys (dict_set kd k true) = insert k (down_keys kd) := by
  simp only [dict_set]
  split_ifs with h
  · rw [down_keys_map_true, if_pos h]
  · rw [down_keys_append_single, if_pos rfl]

lemma down_keys_set_false (kd : List (Char × Bool)) (k : Char) :
    down_keys (dict_set kd k false) = (down_keys kd).erase k := by
  simp only [dict_set]
  split_ifs with h
  · exact down_keys_map_false kd k
  · rw [down_keys_append_single, if_neg (by simp)]
    rw [Finset.erase_eq_of_not_mem]
    intro hk
    rw [mem_down_keys_lookup_isSome kd k hk] at h
    exact h rfl

lemma pressed_after_cons (s : Finset Char) (e : Ev) (l : List Ev) :
    pressed_after s (e :: l) = pressed_after (apply_ev s e) l := rfl

lemma hold_step_pressed (cfg : Config) (kd : List (Char × Bool)) (m : Msg) :
    pressed_after (down_keys kd) (hold_step cfg kd m).2
      = down_keys (hold_step cfg kd m).1 := by
  rcases hmk : midi_note_to_key m.note cfg with _ | k <;>
    simp only [hold_step, hmk] <;>
    split_ifs <;>
    simp [pressed_after, apply_ev, down_keys_set_true, down_keys_set_false]

lemma hold_events_pressed (cfg : Config) (msgs : List Msg)
    (kd : List (Char × Bool)) :
    pressed_after (down_keys kd) (hold_events cfg kd msgs).2
      = down_keys (hold_events cfg kd msgs).1 := by
  induction msgs generalizing kd with
  | nil => simp [hold_events, pressed_after]
  | cons m ms ih =>
    simp only [hold_events]
    rw [pressed_after_append, hold_step_pressed]
    exact ih _

lemma tap_events_pressed_empty (cfg : Config) (msgs : List Msg) :
    pressed_after ∅ (tap_events cfg msgs) = ∅ := by
  simp only [tap_events]
  by_cases h : (tap_keys cfg msgs).isEmpty
  · have hnil : tap_keys cfg msgs = [] := by
      simpa [List.isEmpty_iff] using h
    simp [h, hnil, pressed_after]
  · rw [if_neg h, pressed_after_append, pressed_after_press_map,
      pressed_after_cons,
      show apply_ev (∅ ∪ (tap_keys cfg msgs).toFinset)
          (Ev.sleep (tap_seconds cfg))
        = ∅ ∪ (tap_keys cfg msgs).toFinset from rfl,
      pressed_after_release_map]
    simp

lemma group_events_pressed_tap (cfg : Config) (h : cfg.always_tap = true)
    (prev t : ℚ) (kd : List (Char × Bool)) (msgs : List Msg) :
    (group_events cfg prev t kd msgs).1 = kd
    ∧ pressed_after ∅ (group_events cfg prev t kd msgs).2 = ∅ := by
  refine ⟨by simp [group_events, h], ?_⟩
  have h2 : (group_events cfg prev t kd msgs).2
      = (if 0 < (t - prev) / max cfg.speed (1/1000000)
          then [Ev.sleep ((t - prev) / max cfg.speed (1/1000000))] else [])
        ++ tap_events cfg msgs := by
    simp [group_events, h]
  rw [h2, pressed_after_append]
  have hsleep : pressed_after ∅
      (if 0 < (t - prev) / max cfg.speed (1/1000000)
        then [Ev.sleep ((t - prev) / max cfg.speed (1/1000000))] else []) = ∅ := by
    split_ifs <;> rfl
  rw [hsleep, tap_events_pressed_empty]

lemma group_events_pressed_hold (cfg : Config) (h : cfg.always_tap = false)
    (prev t : ℚ) (kd : List (Char × Bool)) (msgs : List Msg) :
    pressed_after (down_keys kd) (group_events cfg prev t kd msgs).2
      = down_keys (group_events cfg prev t kd msgs).1 := by
  simp only [group_events, h, Bool.false_eq_true, if_false]
  rw [pressed_after_append]
  have hsleep : pressed_after (down_keys kd)
      (if 0 < (t - prev) / max cfg.speed (1/1000000)
        then [Ev.sleep ((t - prev) / max cfg.speed (1/1000000))] else [])
      = down_keys kd := by
    split_ifs <;> rfl
  rw [hsleep, hold_events_pressed]

lemma run_groups_pressed_tap (cfg : Config) (h : cfg.always_tap = true)
    (stop : ℕ → Bool) (groups : List (ℚ × List Msg)) :
    ∀ (i : ℕ) (prev : ℚ) (kd : List (Char × Bool)),
    (run_groups cfg stop i prev kd groups).1 = kd
    ∧ pressed_after ∅ (run_groups cfg stop i prev kd groups).2 = ∅ := by
  induction groups with
  | nil => intro i prev kd; simp [run_groups, pressed_after]
  | cons g rest ih =>
    intro i prev kd
    obtain ⟨t, msgs⟩ := g
    rcases hstop : stop i with _ | _
    · simp only [run_groups, hstop, Bool.false_eq_true, if_false]
      obtain ⟨hkd, hev⟩ := group_events_pressed_tap cfg h prev t kd msgs
      obtain ⟨ihkd, ihev⟩ := ih (i + 1) t (group_events cfg prev t kd msgs).1
      refine ⟨by rw [ihkd, hkd], ?_⟩
      simp only [pressed_after_cons,
        show apply_ev ∅ (Ev.checkStop false) = ∅ from rfl,
        pressed_after_append, hev, ihev]
    · simp only [run_groups, hstop, if_true]
      exact ⟨trivial, rfl⟩

lemma run_groups_pressed_hold (cfg : Config) (h : cfg.always_tap = false)
    (stop : ℕ → Bool) (groups : List (ℚ × List Msg)) :
    ∀ (i : ℕ) (prev : ℚ) (kd : List (Char × Bool)),
    pressed_after (down_keys kd) (run_groups cfg stop i prev kd groups).2
      = down_keys (run_groups cfg stop i prev kd groups).1 := by
  induction groups with
  | nil => intro i prev kd; simp [run_groups, pressed_after]
  | cons g rest ih =>
    intro i prev kd
    obtain ⟨t, msgs⟩ := g
    rcases hstop : stop i with _ | _
    · simp only [run_groups, hstop, Bool.false_eq_true, if_false]
      simp only [pressed_after_cons,
        show apply_ev (down_keys kd) (Ev.checkStop false) = down_keys kd from rfl,
        pressed_after_append, group_events_pressed_hold cfg h,
        ih (i + 1) t _]
    · simp only [run_groups, hstop, if_true]
      rfl

lemma pressed_after_final_release (kd : List (Char × Bool)) :
    pressed_after (down_keys kd) (final_release kd) = ∅ := by
  rw [final_release,
    show ((kd.filter fun p => p.2).map fun p => Ev.release p.1)
      = ((kd.filter fun p => p.2).map Prod.fst).map Ev.release from by
        rw [List.map_map]; rfl,
    pressed_after_release_map]
  simp [down_keys]

/-- C7: every synthetic key-down is paired with a key-up by the time the
playback worker finishes: starting from no pressed keys, the full event
trace (any stop schedule, either mode) leaves no key pressed; and in tap
mode each group presses the deduplicated key set of its messages and then
releases exactly that set. -/
theorem play_worker_keys_balanced_spec (cfg : Config) (stop : ℕ → Bool)
    (groups : List (ℚ × List Msg)) :
    pressed_after ∅ (play_worker_events cfg stop groups) = ∅
    ∧ (cfg.always_tap = true → ∀ msgs : List Msg,
        (tap_keys cfg msgs).Nodup
        ∧ (tap_keys cfg msgs).toFinset = (raw_tap_keys cfg msgs).toFinset
        ∧ tap_events cfg msgs
            = (tap_keys cfg msgs).map Ev.press
              ++ (if (tap_keys cfg msgs).isEmpty then []
                  else Ev.sleep (tap_seconds cfg)
                    :: (tap_keys cfg msgs).map Ev.release)) := by
  constructor
  · rcases groups with _ | ⟨g, rest⟩
    · rfl
    · simp only [play_worker_events]
      rw [pressed_after_append]
      rcases htap : cfg.always_tap with _ | _
      · have hrun := run_groups_pressed_hold cfg htap stop (g :: rest) 0 g.1 []
        rw [show down_keys ([] : List (Char × Bool)) = ∅ from rfl] at hrun
        rw [hrun, pressed_after_final_release]
      · obtain ⟨hkd, hev⟩ :=
          run_groups_pressed_tap cfg htap stop (g :: rest) 0 g.1 []
        rw [hev, hkd]
        rfl
  · intro _ msgs
    exact ⟨pydedup_nodup _, pydedup_toFinset _, rfl⟩

theorem play_worker_keys_balanced_spec_witness :
    (tap_keys {} [⟨MsgType.note_on, 60, 64, false, 0⟩]).Nodup
    ∧ (tap_keys {} [⟨MsgType.note_on, 60, 64, false, 0⟩]).toFinset
        = (raw_tap_keys {} [⟨MsgType.note_on, 60, 64, false, 0⟩]).toFinset
    ∧ tap_events {} [⟨MsgType.note_on, 60, 64, false, 0⟩]
        = (tap_keys {} [⟨MsgType.note_on, 60, 64, false, 0⟩]).map Ev.press
          ++ (if (tap_keys {} [⟨MsgType.note_on, 60, 64, false, 0⟩]).isEmpty
              then []
              else Ev.sleep (tap_seconds {})
                :: (tap_keys {} [⟨MsgType.note_on, 60, 64, false, 0⟩]).map
                    Ev.release) :=
  (play_worker_keys_balanced_spec {} (fun _ => false) []).2 rfl
    [⟨MsgType.note_on, 60, 64, false, 0⟩]

lemma hold_step_no_check (cfg : Config) (kd : List (Char × Bool)) (m : Msg) :
    ∀ e ∈ (hold_step cfg kd m).2, is_check_ev e = false := by
  rcases hmk : midi_note_to_key m.note cfg with _ | k <;>
    simp only [hold_step, hmk] <;> split_ifs <;> intro e he <;>
    fin_cases he <;> rfl

lemma hold_events_no_check (cfg : Config) (msgs : List Msg)
    (kd : List (Char × Bool)) :
    ∀ e ∈ (hold_events cfg kd msgs).2, is_check_ev e = false := by
  induction msgs generalizing kd with
  | nil => simp [hold_events]
  | cons m ms ih =>
    intro e he
    simp only [hold_events, List.mem_append] at he
    rcases he with he | he
    · exact hold_step_no_check cfg kd m e he
    · exact ih _ e he

lemma tap_events_no_check (cfg : Config) (msgs : List Msg) :
    ∀ e ∈ tap_events cfg msgs, is_check_ev e = false := by
  intro e he
  simp only [tap_events, List.mem_append] at he
  rcases he with he | he
  · obtain ⟨k, -, rfl⟩ := List.mem_map.mp he; rfl
  · split_ifs at he with h
    · cases he
    · rcases List.mem_cons.mp he with rfl | he'
      · rfl
      · obtain ⟨k, -, rfl⟩ := List.mem_map.mp he'; rfl

lemma sleeps_no_check (q : ℚ) :
    ∀ e ∈ (if 0 < q then [Ev.sleep q] else []), is_check_ev e = false := by
  intro e he
  split_ifs at he
  · rw [List.mem_singleton.mp he]; rfl
  · cases he

lemma group_events_no_check (cfg : Config) (prev t : ℚ)
    (kd : List (Char × Bool)) (msgs : List Msg) :
    ∀ e ∈ (group_events cfg prev t kd msgs).2, is_check_ev e = false := by
  intro e he
  rcases htap : cfg.always_tap with _ | _
  · simp only [group_events, htap, Bool.false_eq_true, if_false,
      List.mem_append] at he
    rcases he with he | he
    · exact sleeps_no_check _ e he
    · exact hold_events_no_check cfg msgs kd e he
  · simp only [group_events, htap, if_true, List.mem_append] at he
    rcases he with he | he
    · exact sleeps_no_check _ e he
    · exact tap_events_no_check cfg msgs e he

lemma run_groups_nostop_check_count (cfg : Config) (i : ℕ) (prev : ℚ)
    (kd : List (Char × Bool)) (groups : List (ℚ × List Msg)) :
    ((run_groups cfg (fun _ => false) i prev kd groups).2.countP is_check_ev)
      = groups.length := by
  induction groups generalizing i prev kd with
  | nil => simp [run_groups]
  | cons g rest ih =>
    obtain ⟨t, msgs⟩ := g
    simp only [run_groups, Bool.false_eq_true, if_false]
    rw [List.countP_append, List.countP_cons_of_pos _ _ (by rfl)]
    have hz : (group_events cfg prev t kd msgs).2.countP is_check_ev = 0 :=
      List.countP_eq_zero.mpr fun e he => by
        simpa using group_events_no_check cfg prev t kd msgs e he
    rw [hz, ih (i + 1) t _]
    simp only [List.length_cons]
    omega

lemma run_groups_stop_eq (cfg : Config) (stop : ℕ → Bool) (k : ℕ) :
    ∀ (i : ℕ) (prev : ℚ) (kd : List (Char × Bool))
      (groups : List (ℚ × List Msg)),
    k < groups.length →
    (∀ j, j < k → stop (i + j) = false) → stop (i + k) = true →
    run_groups cfg stop i prev kd groups
      = ((run_groups cfg (fun _ => false) i prev kd (groups.take k)).1,
         (run_groups cfg (fun _ => false) i prev kd (groups.take k)).2
           ++ [Ev.checkStop true]) := by
  induction k with
  | zero =>
    intro i prev kd groups hk h1 h2
    rcases groups with _ | ⟨⟨t, msgs⟩, rest⟩
    · simp at hk
    · rw [Nat.add_zero] at h2
      simp [run_groups, h2]
  | succ n ih =>
    intro i prev kd groups hk h1 h2
    rcases groups with _ | ⟨⟨t, msgs⟩, rest⟩
    · simp at hk
    · have hstop : stop i = false := by simpa using h1 0 (Nat.succ_pos n)
      have hrec := ih (i + 1) t (group_events cfg prev t kd msgs).1 rest
        (by simpa using hk)
        (fun j hj => by
          have hh := h1 (j + 1) (by omega)
          rwa [show i + (j + 1) = i + 1 + j from by omega] at hh)
        (by rwa [show i + 1 + n = i + (n + 1) from by omega])
      simp only [run_groups, hstop, Bool.false_eq_true, if_false,
        List.take_succ_cons]
      rw [hrec]
      simp [List.append_assoc]

/-- C6: the stop flag is tested exactly once per loop iteration, at the top
before any sleep or key emission of that group: if the stop flag first
becomes observable at iteration `k`, the loop's trace is exactly the
no-stop trace of the first `k` groups followed by the positive stop test,
with no event of group `k` or any later group; the trace contains `k + 1`
stop tests, while a run that is never stopped tests once per group. -/
theorem play_worker_stop_once_spec (cfg : Config) (stop : ℕ → Bool)
    (prev : ℚ) (kd : List (Char × Bool)) (groups : List (ℚ × List Msg))
    (k : ℕ) (hk : k < groups.length)
    (h1 : ∀ j, j < k → stop j = false) (h2 : stop k = true) :
    run_groups cfg stop 0 prev kd groups
      = ((run_groups cfg (fun _ => false) 0 prev kd (groups.take k)).1,
         (run_groups cfg (fun _ => false) 0 prev kd (groups.take k)).2
           ++ [Ev.checkStop true])
    ∧ (run_groups cfg stop 0 prev kd groups).2.countP is_check_ev = k + 1
    ∧ ∀ gs : List (ℚ × List Msg),
        ((run_groups cfg (fun _ => false) 0 prev kd gs).2.countP is_check_ev)
          = gs.length := by
  have heq := run_groups_stop_eq cfg stop k 0 prev kd groups hk
    (fun j hj => by simpa using h1 j hj) (by simpa using h2)
  refine ⟨heq, ?_, fun gs => run_groups_nostop_check_count cfg 0 prev kd gs⟩
  rw [heq]
  show ((run_groups cfg (fun _ => false) 0 prev kd (groups.take k)).2
      ++ [Ev.checkStop true]).countP is_check_ev = k + 1
  rw [List.countP_append, run_groups_nostop_check_count,
    show [Ev.checkStop true].countP is_check_ev = 1 from rfl,
    List.length_take]
  omega

theorem play_worker_stop_once_spec_witness :
    run_groups {} (fun n => decide (n = 1)) 0 0 []
        [((0 : ℚ), ([] : List Msg)), ((1 : ℚ), ([] : List Msg))]
      = ((run_groups {} (fun _ => false) 0 0 []
            (([((0 : ℚ), ([] : List Msg)), ((1 : ℚ), ([] : List Msg))]).take 1)).1,
         (run_groups {} (fun _ => false) 0 0 []
            (([((0 : ℚ), ([] : List Msg)), ((1 : ℚ), ([] : List Msg))]).take 1)).2
           ++ [Ev.checkStop true])
    ∧ (run_groups {} (fun n => decide (n = 1)) 0 0 []
        [((0 : ℚ), ([] : List Msg)), ((1 : ℚ), ([] : List Msg))]).2.countP
          is_check_ev = 1 + 1
    ∧ ∀ gs : List (ℚ × List Msg),
        ((run_groups {} (fun _ => false) 0 0 [] gs).2.countP is_check_ev)
          = gs.length :=
  play_worker_stop_once_spec {} (fun n => decide (n = 1)) 0 []
    [((0 : ℚ), ([] : List Msg)), ((1 : ℚ), ([] : List Msg))] 1 (by decide)
    (fun j hj => by
      have hj0 : j = 0 := by omega
      subst hj0; rfl)
    rfl
